import Mathlib

/-!
Shallow embedding of the `bull-game` engine (`src/main.py`) and proofs of the
specification claims about it.

Conventions of the embedding:
* Python `int` card values are `Nat` (all values in play are positive and only
  compared / reduced mod constants); awarded points are `Int` (Python ints that
  are summed and accumulated).
* A Python method mutating `self` becomes a function returning the new value.
* A Python operation that can raise (`IndexError` from list indexing,
  `ValueError` from `min([])`) returns `Option`, with `none` for the raise.
* Python list indexing accepts negative indices counting from the end; this is
  modelled explicitly by `pyIndex`.
* `bisect.bisect` (an alias of `bisect_right`) is embedded as the CPython
  binary-search loop, with explicit fuel bounding the iteration count
  (`hi - lo` shrinks each iteration, so `a.length` iterations always suffice).
* Python `sorted` with a key is embedded as a stable insertion sort on piles
  keyed by `high_value`.
-/

/-- Constant `PILE_SIZE` from `main.py`. -/
def PILE_SIZE : Nat := 5

/-- Constant `NUM_PILES` from `main.py`. -/
def NUM_PILES : Nat := 4

/-- `Card.points` from `main.py`: tiered point value of a card. -/
def Card.points (value : Nat) : Int :=
  if value % 55 = 0 then 7
  else if value % 11 = 0 then 5
  else if value % 10 = 0 then 3
  else if value % 5 = 0 then 2
  else 1

/-- The `Pile` class state: its cards (by value), its `size` counter and its
`high_value` field, exactly the three attributes kept by `main.py`. -/
structure Pile where
  cards : List Nat
  size : Nat
  high_value : Nat
deriving DecidableEq, Repr

/-- `Pile.__init__`: a fresh pile holding a single base value. -/
def Pile.init (base_value : Nat) : Pile :=
  ⟨[base_value], 1, base_value⟩

/-- `Pile.add_value`: returns the new pile state and the points awarded. -/
def Pile.add_value (p : Pile) (value : Nat) : Pile × Int :=
  if PILE_SIZE ≤ p.size ∨ value < p.high_value then
    (Pile.init value, (p.cards.map Card.points).sum)
  else
    (⟨p.cards ++ [value], p.size + 1, value⟩, 0)

/-- Every card is worth at least one point. -/
theorem Card.points_pos (value : Nat) : 1 ≤ Card.points value := by
  unfold Card.points
  repeat' split
  all_goals decide

/-- C5: `points` follows the tiered divisibility rule (55 → 7, 11 → 5, 10 → 3,
5 → 2, otherwise 1), is at least 1 for every value, and takes the quoted
values at 55, 11, 10, 5 and 7. -/
theorem card_points_tiers :
    ∀ v : Nat,
      Card.points v =
        (if v % 55 = 0 then 7
         else if v % 11 = 0 then 5
         else if v % 10 = 0 then 3
         else if v % 5 = 0 then 2
         else 1) ∧
      1 ≤ Card.points v ∧
      Card.points 55 = 7 ∧ Card.points 11 = 5 ∧ Card.points 10 = 3 ∧
      Card.points 5 = 2 ∧ Card.points 7 = 1 := by
  intro v
  refine ⟨rfl, Card.points_pos v, by decide, by decide, by decide, by decide, by decide⟩

/-- C1: on a well-formed pile (size at most `PILE_SIZE`), `add_value` claims
exactly when the pile is full or the value is below `high_value` — awarding the
sum of the pile's card points and resetting to the single new value — and
otherwise appends: size grows by exactly 1, `high_value` becomes the value, and
0 points are returned. -/
theorem add_value_spec (p : Pile) (value : Nat) (h : p.size ≤ PILE_SIZE) :
    (p.size = PILE_SIZE ∨ value < p.high_value →
      p.add_value value = (Pile.init value, (p.cards.map Card.points).sum)) ∧
    (¬(p.size = PILE_SIZE ∨ value < p.high_value) →
      p.add_value value = (⟨p.cards ++ [value], p.size + 1, value⟩, 0)) := by
  constructor
  · intro hcl
    have hcond : PILE_SIZE ≤ p.size ∨ value < p.high_value := by
      rcases hcl with h1 | h2
      · exact Or.inl (le_of_eq h1.symm)
      · exact Or.inr h2
    simp only [Pile.add_value, if_pos hcond]
  · intro hcl
    push_neg at hcl
    have hcond : ¬(PILE_SIZE ≤ p.size ∨ value < p.high_value) := by
      push_neg
      exact ⟨lt_of_le_of_ne h hcl.1, hcl.2⟩
    simp only [Pile.add_value, if_neg hcond]

/-- Witness for C1 at a concrete input: adding 2 to the single-card pile
holding 3 claims the pile. -/
theorem add_value_spec_witness :
    (Pile.init 3).add_value 2 =
      (Pile.init 2, ((Pile.init 3).cards.map Card.points).sum) :=
  (add_value_spec (Pile.init 3) 2 (by decide)).1 (Or.inr (by decide))

/-- C10: a value exactly equal to the pile's `high_value`, added to a pile that
is below capacity, is appended (size grows by 1, `high_value` keeps its value)
and awards 0 points — equality counts as an extension, not a claim. -/
theorem add_value_equal_appends (p : Pile) (value : Nat)
    (hsz : p.size < PILE_SIZE) (hval : value = p.high_value) :
    p.add_value value = (⟨p.cards ++ [value], p.size + 1, p.high_value⟩, 0) := by
  have hcond : ¬(PILE_SIZE ≤ p.size ∨ value < p.high_value) := by
    push_neg
    exact ⟨hsz, le_of_eq hval.symm⟩
  simp only [Pile.add_value, if_neg hcond]
  rw [hval]

/-- Witness for C10 at a concrete input: adding 3 to the single-card pile
holding 3 appends the duplicate and awards nothing. -/
theorem add_value_equal_appends_witness :
    (Pile.init 3).add_value 3 = (⟨[3, 3], 2, 3⟩, 0) :=
  add_value_equal_appends (Pile.init 3) 3 (by decide) (by decide)

/-- The loop of CPython's `bisect_right`: `while lo < hi: mid = (lo+hi)//2;
if x < a[mid]: hi = mid else: lo = mid+1`, with explicit fuel (the loop runs at
most `hi - lo` times, so `a.length` units of fuel always suffice). -/
def bisect_loop (a : List Nat) (x : Nat) : Nat → Nat → Nat → Nat
  | 0, lo, _ => lo
  | fuel + 1, lo, hi =>
    if lo < hi then
      let mid := (lo + hi) / 2
      if x < a.getD mid 0 then bisect_loop a x fuel lo mid
      else bisect_loop a x fuel (mid + 1) hi
    else lo

/-- `bisect.bisect` (alias of `bisect_right`) as called at `main.py:159`:
insertion point of `x` in `a`, to the right of entries equal to `x`. -/
def bisect (a : List Nat) (x : Nat) : Nat :=
  bisect_loop a x a.length 0 a.length

/-- `main.py:159`: the pile index chosen by the automatic branch of
`Game.play_turn`, namely `bisect.bisect(high_values, selected_value) - 1`
(as a Python `int`, so the subtraction can go negative). -/
def autoPile (high_values : List Nat) (value : Nat) : Int :=
  (bisect high_values value : Int) - 1

/-- In a `≤`-sorted list, entries are monotone in the index (`getD` form). -/
theorem sorted_getD_mono {a : List Nat} (hs : a.Pairwise (· ≤ ·))
    {i j : Nat} (hij : i ≤ j) (hj : j < a.length) : a.getD i 0 ≤ a.getD j 0 := by
  rcases Nat.lt_or_ge i j with hlt | hge
  · have hi : i < a.length := lt_trans hlt hj
    have := List.pairwise_iff_getElem.mp hs i j hi hj hlt
    rwa [List.getD_eq_getElem a 0 hi, List.getD_eq_getElem a 0 hj]
  · have : i = j := le_antisymm hij hge
    exact le_of_eq (by rw [this])

/-- Invariant of the `bisect_right` loop: starting from a window `[lo, hi)`
with everything left of `lo` at most `x` and everything from `hi` on strictly
greater, the loop returns the insertion point `r`: every entry before `r` is
at most `x` and every entry from `r` on is strictly greater. -/
theorem bisect_loop_spec (a : List Nat) (x : Nat) (hs : a.Pairwise (· ≤ ·)) :
    ∀ fuel lo hi, hi ≤ a.length → lo ≤ hi → hi - lo ≤ fuel →
      (∀ j, j < lo → a.getD j 0 ≤ x) →
      (∀ j, hi ≤ j → j < a.length → x < a.getD j 0) →
      lo ≤ bisect_loop a x fuel lo hi ∧ bisect_loop a x fuel lo hi ≤ hi ∧
      (∀ j, j < bisect_loop a x fuel lo hi → a.getD j 0 ≤ x) ∧
      (∀ j, bisect_loop a x fuel lo hi ≤ j → j < a.length → x < a.getD j 0) := by
  intro fuel
  induction fuel with
  | zero =>
    intro lo hi hhi hlohi hfuel hlow hhigh
    have : lo = hi := by omega
    subst this
    exact ⟨le_refl _, le_refl _, hlow, hhigh⟩
  | succ fuel ih =>
    intro lo hi hhi hlohi hfuel hlow hhigh
    by_cases hlt : lo < hi
    · have hmidlo : lo ≤ (lo + hi) / 2 := by omega
      have hmidhi : (lo + hi) / 2 < hi := by omega
      have hmidlen : (lo + hi) / 2 < a.length := lt_of_lt_of_le hmidhi hhi
      simp only [bisect_loop, if_pos hlt]
      by_cases hx : x < a.getD ((lo + hi) / 2) 0
      · simp only [if_pos hx]
        have hhigh' : ∀ j, (lo + hi) / 2 ≤ j → j < a.length → x < a.getD j 0 := by
          intro j hj hjlen
          exact lt_of_lt_of_le hx (sorted_getD_mono hs hj hjlen)
        have := ih lo ((lo + hi) / 2) (le_of_lt hmidlen) hmidlo (by omega) hlow hhigh'
        exact ⟨this.1, le_trans this.2.1 (le_of_lt hmidhi), this.2.2⟩
      · simp only [if_neg hx]
        push_neg at hx
        have hlow' : ∀ j, j < (lo + hi) / 2 + 1 → a.getD j 0 ≤ x := by
          intro j hj
          exact le_trans (sorted_getD_mono hs (by omega) hmidlen) hx
        have := ih ((lo + hi) / 2 + 1) hi hhi (by omega) (by omega) hlow' hhigh
        exact ⟨le_trans (by omega) this.1, this.2⟩
    · have : lo = hi := by omega
      subst this
      simp only [bisect_loop, if_neg hlt]
      exact ⟨le_refl _, le_refl _, hlow, hhigh⟩

/-- `bisect_right` correctness on a sorted list: it returns the count of
entries that are at most `x`, split as: every entry before the result is at
most `x` and every entry from the result on is strictly greater. -/
theorem bisect_spec (a : List Nat) (x : Nat) (hs : a.Pairwise (· ≤ ·)) :
    bisect a x ≤ a.length ∧
    (∀ j, j < bisect a x → a.getD j 0 ≤ x) ∧
    (∀ j, bisect a x ≤ j → j < a.length → x < a.getD j 0) := by
  have := bisect_loop_spec a x hs a.length 0 a.length (le_refl _) (Nat.zero_le _)
    (by omega) (by intro j hj; omega) (by intro j hj hjlen; omega)
  exact ⟨this.2.1, this.2.2⟩

/-- Python's `min` on a list: `none` on the empty list (where Python raises
`ValueError`), otherwise the least element. -/
def listMin {α : Type} [LinearOrder α] : List α → Option α
  | [] => none
  | x :: xs =>
    some (match listMin xs with
          | none => x
          | some m => min x m)

/-- The value returned by `listMin` is an element of the list. -/
theorem listMin_mem {α : Type} [LinearOrder α] :
    ∀ {l : List α} {m : α}, listMin l = some m → m ∈ l := by
  intro l
  induction l with
  | nil => intro m h; simp [listMin] at h
  | cons x xs ih =>
    intro m h
    simp only [listMin] at h
    cases hxs : listMin xs with
    | none =>
      rw [hxs] at h
      simp only [Option.some.injEq] at h
      exact h ▸ List.mem_cons_self x xs
    | some m' =>
      rw [hxs] at h
      simp only [Option.some.injEq] at h
      rcases min_cases x m' with ⟨heq, _⟩ | ⟨heq, _⟩
      · rw [← h, heq]
        exact List.mem_cons_self x xs
      · rw [← h, heq]
        exact List.mem_cons_of_mem x (ih hxs)

/-- The value returned by `listMin` is a lower bound of the list. -/
theorem listMin_le {α : Type} [LinearOrder α] :
    ∀ {l : List α} {m : α}, listMin l = some m → ∀ y ∈ l, m ≤ y := by
  intro l
  induction l with
  | nil => intro m h; simp [listMin] at h
  | cons x xs ih =>
    intro m h y hy
    simp only [listMin] at h
    cases hxs : listMin xs with
    | none =>
      rw [hxs] at h
      simp only [Option.some.injEq] at h
      cases xs with
      | nil =>
        have hyx : y = x := List.mem_singleton.mp hy
        rw [hyx, ← h]
      | cons z zs => simp [listMin] at hxs
    | some m' =>
      rw [hxs] at h
      simp only [Option.some.injEq] at h
      rcases List.mem_cons.mp hy with h1 | hy'
      · rw [h1, ← h]
        exact min_le_left x m'
      · rw [← h]
        exact le_trans (min_le_right x m') (ih hxs y hy')

/-- `listMin` is defined on every non-empty list. -/
theorem listMin_isSome {α : Type} [LinearOrder α] {l : List α} (h : l ≠ []) :
    ∃ m, listMin l = some m := by
  cases l with
  | nil => exact absurd rfl h
  | cons x xs => exact ⟨_, rfl⟩

/-- Counterexample to C2 as stated: with sorted high values `[10, 20, 30, 40]`
and played value `20` (which exceeds the minimum 10), the automatic branch
selects index 1 — whose high value is `20`, not strictly less than the played
value — instead of the rightmost pile with high value strictly below 20
(index 0). -/
theorem auto_select_strict_cex :
    (10 : Nat) < 20 ∧
    autoPile [10, 20, 30, 40] 20 = 1 ∧
    ¬(([10, 20, 30, 40] : List Nat).getD 1 0 < 20) ∧
    ([10, 20, 30, 40] : List Nat).getD 0 0 < 20 := by
  refine ⟨by decide, by decide, by decide, by decide⟩

/-- C2 (amended): on a sorted board whose minimum high value is below the
played value, the automatic branch selects the rightmost pile whose high value
is less than or equal to the played value (for values distinct from every high
value — as in any real deal, where card values are unique — this coincides
with the rightmost pile strictly below the value). -/
theorem auto_select_tightest_fit (high_values : List Nat) (value : Nat) (m : Nat)
    (hs : high_values.Pairwise (· ≤ ·))
    (hm : listMin high_values = some m) (hv : m < value) :
    1 ≤ bisect high_values value ∧
    autoPile high_values value = ((bisect high_values value - 1 : Nat) : Int) ∧
    bisect high_values value - 1 < high_values.length ∧
    high_values.getD (bisect high_values value - 1) 0 ≤ value ∧
    ∀ j, j < high_values.length → high_values.getD j 0 ≤ value →
      j ≤ bisect high_values value - 1 := by
  obtain ⟨hle, hlow, hhigh⟩ := bisect_spec high_values value hs
  have hmem : m ∈ high_values := listMin_mem hm
  obtain ⟨k, hk, hkm⟩ := List.mem_iff_getElem.mp hmem
  have hkD : high_values.getD k 0 = m := by
    rw [List.getD_eq_getElem high_values 0 hk, hkm]
  have hpos : 1 ≤ bisect high_values value := by
    by_contra hneg
    have h0 : bisect high_values value = 0 := by omega
    have := hhigh k (by omega) hk
    rw [hkD] at this
    omega
  refine ⟨hpos, ?_, by omega, hlow _ (by omega), ?_⟩
  · unfold autoPile
    omega
  · intro j hj hjle
    by_contra hgt
    have := hhigh j (by omega) hj
    omega

/-- Witness for the amended C2 at a concrete input: high values
`[10, 20, 30, 40]`, played value 15, minimum 10. -/
theorem auto_select_tightest_fit_witness :
    1 ≤ bisect [10, 20, 30, 40] 15 ∧
    autoPile [10, 20, 30, 40] 15 = ((bisect [10, 20, 30, 40] 15 - 1 : Nat) : Int) ∧
    bisect [10, 20, 30, 40] 15 - 1 < ([10, 20, 30, 40] : List Nat).length ∧
    ([10, 20, 30, 40] : List Nat).getD (bisect [10, 20, 30, 40] 15 - 1) 0 ≤ 15 ∧
    ∀ j, j < ([10, 20, 30, 40] : List Nat).length →
      ([10, 20, 30, 40] : List Nat).getD j 0 ≤ 15 →
      j ≤ bisect [10, 20, 30, 40] 15 - 1 :=
  auto_select_tightest_fit [10, 20, 30, 40] 15 10 (by decide) (by decide) (by decide)

/-- Python list indexing `l[i]` for a list of length `n`: a nonnegative index
must be below `n`, a negative index counts from the end (`l[-k]` is
`l[n - k]`), and anything else raises `IndexError` (modelled as `none`). -/
def pyIndex (n : Nat) (i : Int) : Option Nat :=
  if 0 ≤ i ∧ i < (n : Int) then some i.toNat
  else if -(n : Int) ≤ i ∧ i < 0 then some (n - (-i).toNat)
  else none

/-- One step of the stable insertion used to embed Python's `sorted` with
`key=lambda pile: pile.high_value` (`main.py:166`): a pile is inserted after
every pile with a key less than or equal to its own. -/
def insertPile (p : Pile) : List Pile → List Pile
  | [] => [p]
  | q :: qs =>
    if q.high_value ≤ p.high_value then q :: insertPile p qs
    else p :: q :: qs

/-- Python's `sorted(board, key=lambda pile: pile.high_value)`: a stable sort
of the piles by `high_value`, embedded as insertion sort. -/
def sortBoard : List Pile → List Pile
  | [] => []
  | p :: ps => insertPile p (sortBoard ps)

/-- Membership in an insertion step: the inserted pile, or a pile of the
original list. -/
theorem mem_insertPile {x p : Pile} :
    ∀ {l : List Pile}, x ∈ insertPile p l → x = p ∨ x ∈ l := by
  intro l
  induction l with
  | nil =>
    intro hx
    exact Or.inl (List.mem_singleton.mp hx)
  | cons q qs ih =>
    intro hx
    simp only [insertPile] at hx
    by_cases hc : q.high_value ≤ p.high_value
    · rw [if_pos hc] at hx
      rcases List.mem_cons.mp hx with h1 | h2
      · exact Or.inr (h1 ▸ List.mem_cons_self q qs)
      · rcases ih h2 with h3 | h4
        · exact Or.inl h3
        · exact Or.inr (List.mem_cons_of_mem q h4)
    · rw [if_neg hc] at hx
      rcases List.mem_cons.mp hx with h1 | h2
      · exact Or.inl h1
      · exact Or.inr h2

/-- Inserting into a list sorted by `high_value` keeps it sorted. -/
theorem insertPile_sorted (p : Pile) :
    ∀ {l : List Pile}, l.Pairwise (fun a b => a.high_value ≤ b.high_value) →
      (insertPile p l).Pairwise (fun a b => a.high_value ≤ b.high_value) := by
  intro l
  induction l with
  | nil =>
    intro _
    exact List.pairwise_singleton _ p
  | cons q qs ih =>
    intro hs
    rcases List.pairwise_cons.mp hs with ⟨hq, hqs⟩
    simp only [insertPile]
    by_cases hc : q.high_value ≤ p.high_value
    · rw [if_pos hc]
      refine List.pairwise_cons.mpr ⟨?_, ih hqs⟩
      intro x hx
      rcases mem_insertPile hx with rfl | hx'
      · exact hc
      · exact hq x hx'
    · rw [if_neg hc]
      push_neg at hc
      refine List.pairwise_cons.mpr ⟨?_, hs⟩
      intro x hx
      rcases List.mem_cons.mp hx with rfl | hx'
      · exact le_of_lt hc
      · exact le_trans (le_of_lt hc) (hq x hx')

/-- The board sort always yields a list sorted ascending by `high_value`. -/
theorem sortBoard_sorted :
    ∀ l : List Pile,
      (sortBoard l).Pairwise (fun a b => a.high_value ≤ b.high_value) := by
  intro l
  induction l with
  | nil => exact List.Pairwise.nil
  | cons p ps ih => exact insertPile_sorted p ih

/-- `Game.play_turn` (`main.py:150-166`), with the externally supplied
decisions passed in: the card value the player selected and the pile index the
player's `select_pile` would return (used only when no automatic move exists).
Returns the re-sorted board and the points credited to the acting player, or
`none` where Python raises (`min` of an empty board, index out of range). -/
def playTurn (board : List Pile) (selected_value : Nat) (choice : Int) :
    Option (List Pile × Int) :=
  match listMin (board.map Pile.high_value) with
  | none => none
  | some m =>
    let pileIdx : Int :=
      if m < selected_value then autoPile (board.map Pile.high_value) selected_value
      else choice
    match pyIndex board.length pileIdx with
    | none => none
    | some i =>
      let res := (board.getD i (Pile.init 0)).add_value selected_value
      some (sortBoard (board.set i res.1), res.2)

/-- C3: when the played value is at most the minimum high value, the automatic
branch is not taken: the player's `select_pile` result `c` names the pile that
receives the card, and the turn's outcome is that pile updated by `add_value`
(plus the re-sort), with the points `add_value` awards. -/
theorem play_turn_manual_choice (board : List Pile) (v : Nat) (c : Int) (m : Nat)
    (hm : listMin (board.map Pile.high_value) = some m) (hv : v ≤ m)
    (h0 : 0 ≤ c) (hn : c < (board.length : Int)) :
    playTurn board v c =
      some (sortBoard (board.set c.toNat
              ((board.getD c.toNat (Pile.init 0)).add_value v).1),
            ((board.getD c.toNat (Pile.init 0)).add_value v).2) := by
  have hnlt : ¬ m < v := not_lt.mpr hv
  have hpy : pyIndex board.length c = some c.toNat := by
    unfold pyIndex
    rw [if_pos ⟨h0, hn⟩]
  simp only [playTurn, hm, if_neg hnlt, hpy]

/-- Witness for C3 at a concrete input: value 5 on the board with high values
10 and 20 and pile choice 0. -/
theorem play_turn_manual_choice_witness :
    playTurn [Pile.init 10, Pile.init 20] 5 0 =
      some (sortBoard ([Pile.init 10, Pile.init 20].set (Int.toNat 0)
              (([Pile.init 10, Pile.init 20].getD (Int.toNat 0)
                (Pile.init 0)).add_value 5).1),
            (([Pile.init 10, Pile.init 20].getD (Int.toNat 0)
              (Pile.init 0)).add_value 5).2) :=
  play_turn_manual_choice [Pile.init 10, Pile.init 20] 5 0 10
    (by decide) (by decide) (by decide) (by decide)

/-- C4: whenever `play_turn` completes, the resulting board is sorted
ascending by `high_value` — re-established by the sort at `main.py:166`. -/
theorem play_turn_sorted (board : List Pile) (v : Nat) (c : Int)
    (b' : List Pile) (pts : Int) (h : playTurn board v c = some (b', pts)) :
    b'.Pairwise (fun a b => a.high_value ≤ b.high_value) := by
  unfold playTurn at h
  cases hmin : listMin (board.map Pile.high_value) with
  | none => rw [hmin] at h; simp at h
  | some m =>
    rw [hmin] at h
    simp only at h
    cases hidx : pyIndex board.length
        (if m < v then autoPile (board.map Pile.high_value) v else c) with
    | none => rw [hidx] at h; simp at h
    | some i =>
      rw [hidx] at h
      simp only [Option.some.injEq, Prod.mk.injEq] at h
      rw [← h.1]
      exact sortBoard_sorted _

/-- Witness for C4 at a concrete input: playing 15 on the board with high
values 10 and 20 yields a board still sorted by `high_value`. -/
theorem play_turn_sorted_witness :
    ([⟨[10, 15], 2, 15⟩, Pile.init 20] : List Pile).Pairwise
      (fun a b => a.high_value ≤ b.high_value) :=
  play_turn_sorted [Pile.init 10, Pile.init 20] 15 0
    [⟨[10, 15], 2, 15⟩, Pile.init 20] 0 (by decide)

/-- `add_value` never awards negative points: it returns 0 on an append, and
on a claim a sum of per-card points that are each at least 1. -/
theorem add_value_nonneg (p : Pile) (v : Nat) : 0 ≤ (p.add_value v).2 := by
  unfold Pile.add_value
  split
  · apply List.sum_nonneg
    intro x hx
    rcases List.mem_map.mp hx with ⟨y, _, rfl⟩
    exact le_trans (by decide) (Card.points_pos y)
  · simp

/-- C6: the points a completed `play_turn` credits are nonnegative, so a
player's accumulated total (starting from 0) never decreases. -/
theorem play_turn_points_monotone (board : List Pile) (v : Nat) (c : Int)
    (b' : List Pile) (pts : Int) (h : playTurn board v c = some (b', pts)) :
    0 ≤ pts ∧ ∀ q : Int, q ≤ q + pts := by
  unfold playTurn at h
  cases hmin : listMin (board.map Pile.high_value) with
  | none => rw [hmin] at h; simp at h
  | some m =>
    rw [hmin] at h
    simp only at h
    cases hidx : pyIndex board.length
        (if m < v then autoPile (board.map Pile.high_value) v else c) with
    | none => rw [hidx] at h; simp at h
    | some i =>
      rw [hidx] at h
      simp only [Option.some.injEq, Prod.mk.injEq] at h
      have hpts : 0 ≤ pts := h.2 ▸ add_value_nonneg _ v
      exact ⟨hpts, fun q => by omega⟩

/-- Witness for C6 at a concrete input: the forced claim of the pile holding
10 by the value 5 awards 3 points, a nonnegative credit. -/
theorem play_turn_points_monotone_witness :
    (0 : Int) ≤ 3 ∧ ∀ q : Int, q ≤ q + 3 :=
  play_turn_points_monotone [Pile.init 10] 5 0 [Pile.init 5] 3 (by decide)

/-- `main.py:177-179`: the winner indices computed by `play_game` — every
index whose points equal the minimum (`np.argwhere(all_points ==
np.amin(all_points))`), which numpy yields in increasing index order. -/
def winner_idxs (all_points : List Int) : List Nat :=
  match listMin all_points with
  | none => []
  | some m =>
    (List.range all_points.length).filter (fun i => all_points.getD i 0 = m)

/-- C7: for a non-empty score list, the winner indices are exactly the players
whose points are minimal (all of them, on a tie), listed in stable (strictly
increasing) player order. -/
theorem winners_are_min_points (pts : List Int) (h : pts ≠ []) :
    (∀ i, i ∈ winner_idxs pts ↔
      i < pts.length ∧ ∀ j, j < pts.length → pts.getD i 0 ≤ pts.getD j 0) ∧
    (winner_idxs pts).Pairwise (· < ·) := by
  obtain ⟨m, hm⟩ := listMin_isSome h
  constructor
  · intro i
    simp only [winner_idxs, hm]
    rw [List.mem_filter]
    constructor
    · rintro ⟨hir, hieq⟩
      have hilen : i < pts.length := List.mem_range.mp hir
      have hieq' : pts.getD i 0 = m := of_decide_eq_true hieq
      refine ⟨hilen, ?_⟩
      intro j hj
      rw [hieq']
      apply listMin_le hm
      rw [List.getD_eq_getElem pts 0 hj]
      exact List.getElem_mem hj
    · rintro ⟨hilen, hmin⟩
      refine ⟨List.mem_range.mpr hilen, decide_eq_true ?_⟩
      have h1 : m ≤ pts.getD i 0 := by
        apply listMin_le hm
        rw [List.getD_eq_getElem pts 0 hilen]
        exact List.getElem_mem hilen
      have h2 : pts.getD i 0 ≤ m := by
        obtain ⟨k, hk, hkm⟩ := List.mem_iff_getElem.mp (listMin_mem hm)
        have := hmin k hk
        rwa [List.getD_eq_getElem pts 0 hk, hkm] at this
      exact le_antisymm h2 h1
  · simp only [winner_idxs, hm]
    exact (List.pairwise_lt_range _).filter _

/-- Witness for C7 at a concrete input: with scores `[3, 1, 1]`, player 1 (a
minimal scorer tied with player 2) is in the winner set. -/
theorem winners_are_min_points_witness :
    1 ∈ winner_idxs [(3 : Int), 1, 1] :=
  (((winners_are_min_points [(3 : Int), 1, 1] (by decide)).1 1)).mpr (by decide)

/-- Counterexample to C8 as stated: after 15 is auto-placed on the 10-pile,
no pile holds the single card 10 any more (the 10-pile now holds 10 and 15),
and the subsequent forced claim of that pile by the value 5 awards 5 points,
not `points(10) = 3`. -/
theorem scenario_single_card_cex :
    playTurn [Pile.init 10, Pile.init 20, Pile.init 30, Pile.init 40] 15 0 =
      some ([⟨[10, 15], 2, 15⟩, Pile.init 20, Pile.init 30, Pile.init 40], 0) ∧
    ([⟨[10, 15], 2, 15⟩, Pile.init 20, Pile.init 30, Pile.init 40] : List Pile).all
      (fun p => p.cards != [10]) = true ∧
    playTurn [⟨[10, 15], 2, 15⟩, Pile.init 20, Pile.init 30, Pile.init 40] 5 0 =
      some ([Pile.init 5, Pile.init 20, Pile.init 30, Pile.init 40], 5) ∧
    ¬((5 : Int) = 3) := by
  refine ⟨by decide, by decide, by decide, by decide⟩

/-- C8 (amended): with piles seeded at `[10, 20, 30, 40]`, playing 15
auto-places on the 10-pile (its `high_value` becomes 15, 0 points); the
subsequent play of 5 is at most every high value (minimum 15), forcing a
manual claim, and claiming the pile that held the 10 — which now holds the
cards 10 and 15 — awards `points(10) + points(15) = 5`. -/
theorem scenario_end_to_end_amended :
    playTurn [Pile.init 10, Pile.init 20, Pile.init 30, Pile.init 40] 15 0 =
      some ([⟨[10, 15], 2, 15⟩, Pile.init 20, Pile.init 30, Pile.init 40], 0) ∧
    listMin (([⟨[10, 15], 2, 15⟩, Pile.init 20, Pile.init 30, Pile.init 40] :
      List Pile).map Pile.high_value) = some 15 ∧ (5 : Nat) ≤ 15 ∧
    playTurn [⟨[10, 15], 2, 15⟩, Pile.init 20, Pile.init 30, Pile.init 40] 5 0 =
      some ([Pile.init 5, Pile.init 20, Pile.init 30, Pile.init 40], 5) ∧
    Card.points 10 + Card.points 15 = 5 := by
  refine ⟨by decide, by decide, by decide, by decide, by decide⟩

/-- C9: a negative pile choice within `[-NUM_PILES, -1]` does not abort the
turn — Python list indexing counts it from the end, so the card is silently
placed on an existing pile and its points are credited: choice `-1` on a
4-pile board claims the last pile (high value 40) and awards
`points(40) = 3`. -/
theorem negative_pile_idx_not_fatal :
    playTurn [Pile.init 10, Pile.init 20, Pile.init 30, Pile.init 40] 5 (-1) =
      some ([Pile.init 5, Pile.init 10, Pile.init 20, Pile.init 30], 3) ∧
    (-1 : Int) < 0 ∧
    pyIndex NUM_PILES (-1) = some 3 := by
  refine ⟨by decide, by decide, by decide⟩

